import Mathlib

/-!
Verification of the Directory Structure Scanner
(`src/teams/fix_migration_crew/tools/generate_tree.py`).

The scanner is shallowly embedded:
* a filesystem directory is a `List Entry`; file contents are a `FileData`
  (plain text, or a JSON value standing for the serialized bytes that
  `json.dump` produced and that `json.load` parses back);
* `walk_dir` mirrors the Python `walk_dir`: sort children by
  `(not is_dir, name.lower())`, skip names in the ignore set, skip `.pyc`
  files, and emit dict-shaped `Json` nodes with root-relative POSIX paths;
* `get_structure` mirrors the Python `get_structure`, threading the root
  directory listing explicitly (the Python code keeps it in a module-level
  global) and reporting which I/O actions happened as a list of `Event`s
  together with the resulting filesystem state.

Recursion over the (nested inductive) filesystem and JSON trees is done
with an explicit fuel argument instantiated at a computable size measure,
so that every definition evaluates by kernel reduction; fuel-irrelevance
lemmas below recover the natural unfolding equations.
-/

/-- JSON values, as produced by `json.dump` / consumed by `json.load`.
Object fields keep insertion order, matching Python dicts. -/
inductive Json where
  | null : Json
  | bool (b : Bool) : Json
  | str (s : String) : Json
  | arr (elems : List Json) : Json
  | obj (fields : List (String × Json)) : Json
deriving Repr

/-- Contents of a file on the modelled filesystem: either plain text, or
the serialized form of a JSON value (what `json.dump` wrote; `json.load`
parses it back to exactly that value). -/
inductive FileData where
  | text (s : String) : FileData
  | jsonVal (j : Json) : FileData
deriving Repr

/-- One directory entry: a file with contents, or a subdirectory with its
own entries. -/
inductive Entry where
  | file (name : String) (data : FileData) : Entry
  | dir (name : String) (children : List Entry) : Entry
deriving Repr

/-- The observable I/O actions of one `get_structure` call, in order. -/
inductive Event where
  | readGitignore : Event
  | readCache : Event
  | walkedFS : Event
  | wroteCache : Event
deriving DecidableEq, Repr

/-- Python exception classes relevant to the scanner: the class the code
raises (`ValueError`) and the class the specification names
(`NotADirectoryError`). -/
inductive PyErr where
  | valueError (msg : String) : PyErr
  | notADirectoryError (msg : String) : PyErr
deriving DecidableEq, Repr

/-- Result of one `get_structure` call: the returned value or raised
error, the I/O events that happened, and the root directory's listing
after the call (`none` when the root did not exist). -/
structure ScanOutcome where
  result : Except PyErr Json
  events : List Event
  fs : Option (List Entry)

/-- Name of a directory entry. -/
def entryName : Entry → String
  | .file n _ => n
  | .dir n _ => n

/-- Whether an entry is a directory (`Path.is_dir()`). -/
def entryIsDir : Entry → Bool
  | .file _ _ => false
  | .dir _ _ => true

/-- Split a character list at every occurrence of `sep`
(used to split `.gitignore` contents into lines and paths into segments). -/
def charSplit (sep : Char) : List Char → List (List Char)
  | [] => [[]]
  | c :: cs =>
    match charSplit sep cs with
    | [] => [[]]
    | r :: rs => if c = sep then [] :: r :: rs else (c :: r) :: rs

/-- The `/`-separated segments of a POSIX path string. -/
def segments (s : String) : List String :=
  (charSplit '/' s.data).map String.mk

/-- Join path segments with `/`, as `PurePath.as_posix()` renders a
relative path. -/
def joinPath : List String → String
  | [] => ""
  | [s] => s
  | s :: rest => s ++ "/" ++ joinPath rest

/-- ASCII lowercasing, modelling Python's `str.lower()` on the ASCII
names the claims are about. -/
def pyLower (s : String) : String :=
  String.mk (s.data.map Char.toLower)

/-- Characters stripped by Python's `str.strip()`. -/
def isPySpace (c : Char) : Bool :=
  c = ' ' || c = '\t' || c = '\n' || c = '\r' || c = '\x0b' || c = '\x0c'

/-- Python's `str.strip()`: drop whitespace from both ends. -/
def pyStrip (s : String) : String :=
  String.mk (((s.data.dropWhile isPySpace).reverse.dropWhile isPySpace).reverse)

/-- Index of the last `.` in a character list, if any (Python's
`str.rfind('.')` when it succeeds). -/
def lastDotIdx : List Char → Option Nat
  | [] => none
  | c :: cs =>
    match lastDotIdx cs with
    | some i => some (i + 1)
    | none => if c = '.' then some 0 else none

/-- Python `pathlib`'s `PurePath.suffix` of a file name: `name[i:]` where
`i = name.rfind('.')`, provided `0 < i < len(name) - 1`, else `""`. -/
def pySuffix (name : String) : String :=
  match lastDotIdx name.data with
  | some i => if 0 < i ∧ i < name.data.length - 1 then String.mk (name.data.drop i) else ""
  | none => ""

/-- Lexicographic comparison of character lists by code point, the way
Python compares strings. -/
def charListLt : List Char → List Char → Bool
  | [], [] => false
  | [], _ :: _ => true
  | _ :: _, [] => false
  | a :: as, b :: bs =>
    if a.toNat < b.toNat then true
    else if b.toNat < a.toNat then false
    else charListLt as bs

/-- String comparison by code points (Python `str.__lt__`). -/
def strLt (a b : String) : Bool :=
  charListLt a.data b.data

/-- Sort key of `sorted(path.iterdir(), key=lambda p: (not p.is_dir(), p.name.lower()))`:
directories first (`false < true`), then case-insensitive name. -/
def entryKey (e : Entry) : Bool × String :=
  (!(entryIsDir e), pyLower (entryName e))

/-- Strict lexicographic order on sort keys (Python tuple `<`). -/
def keyLt (a b : Bool × String) : Bool :=
  (!a.1 && b.1) || (a.1 == b.1 && strLt a.2 b.2)

/-- Non-strict companion of `keyLt`; used by the stable insertion sort so
that equal-keyed entries keep their original relative order, as Python's
stable `sorted` does. -/
def keyLe (a b : Bool × String) : Bool :=
  !(keyLt b a)

/-- Insert an entry into an already sorted list, after all entries whose
key is `≤` its own (stability). -/
def insertEntry (a : Entry) : List Entry → List Entry
  | [] => [a]
  | b :: bs => if keyLe (entryKey a) (entryKey b) then a :: b :: bs else b :: insertEntry a bs

/-- Stable insertion sort by `entryKey`, extensionally equal to Python's
stable `sorted` with the same key. -/
def sortEntries : List Entry → List Entry
  | [] => []
  | e :: es => insertEntry e (sortEntries es)

/-- The built-in ignore set `{"__pycache__", ".DS_Store", ".git"}`. -/
def defaultIgnore : List String := ["__pycache__", ".DS_Store", ".git"]

mutual

/-- Size of an entry, used as recursion fuel. -/
def entrySize : Entry → Nat
  | .file _ _ => 1
  | .dir _ cs => 1 + entryListSize cs

/-- Size of an entry list, used as recursion fuel. -/
def entryListSize : List Entry → Nat
  | [] => 1
  | e :: es => 1 + entrySize e + entryListSize es

end

/-- The `ignore = ignore or {"__pycache__", ".DS_Store", ".git"}` line of
`walk_dir`: an empty (falsy) ignore set is replaced by the built-ins. -/
def igOr (ignore : List String) : List String :=
  if ignore.isEmpty then defaultIgnore else ignore

/-- The dict `walk_dir` appends for a retained directory. -/
def dirNode (p : String) (cs : List Json) : Json :=
  Json.obj [("path", Json.str p), ("type", Json.str "dir"), ("children", Json.arr cs)]

/-- The dict `walk_dir` appends for a retained file. -/
def fileNode (p ext : String) : Json :=
  Json.obj [("path", Json.str p), ("type", Json.str "file"), ("extension", Json.str ext)]

/-- Fuel-driven core of `walk_dir`.  One unit of fuel is spent per
directory level; the size of the entry list is always sufficient. -/
def walkFuel : Nat → List Entry → List String → List String → List Json
  | 0, _, _, _ => []
  | n + 1, es, pre, ignore =>
    let ig := igOr ignore
    (sortEntries es).filterMap fun e =>
      if ig.contains (entryName e) then none
      else
        match e with
        | .dir nm cs =>
          some (dirNode (joinPath (pre ++ [nm])) (walkFuel n cs (pre ++ [nm]) ig))
        | .file nm _ =>
          if pySuffix nm = ".pyc" then none
          else some (fileNode (joinPath (pre ++ [nm])) (pySuffix nm))

/-- The Python `walk_dir(path, ignore)`: recursively walk `es` (the
listing of the directory at relative segments `pre` under the scan root)
and build the list of node dicts. -/
def walk_dir (es : List Entry) (pre : List String) (ignore : List String) : List Json :=
  walkFuel (entryListSize es) es pre ignore

mutual

/-- Size of a JSON value, used as recursion fuel. -/
def jsonSize : Json → Nat
  | .null => 1
  | .bool _ => 1
  | .str _ => 1
  | .arr xs => 1 + jsonListSize xs
  | .obj kvs => 1 + jsonFieldsSize kvs

/-- Size of a JSON array's element list, used as recursion fuel. -/
def jsonListSize : List Json → Nat
  | [] => 1
  | x :: xs => 1 + jsonSize x + jsonListSize xs

/-- Size of a JSON object's field list, used as recursion fuel. -/
def jsonFieldsSize : List (String × Json) → Nat
  | [] => 1
  | (_, v) :: kvs => 1 + jsonSize v + jsonFieldsSize kvs

end

/-- Hexadecimal digit character (lowercase), as Python's `%x` formats. -/
def hexDigit (n : Nat) : Char :=
  (("0123456789abcdef" : String).data.getD n '0')

/-- Escaping of one character inside a JSON string literal, following
`json.dump` with `ensure_ascii=False`: only `"`/`\`, the named control
escapes and `\u00xx` for other control characters. -/
def escapeChar (c : Char) : List Char :=
  if c = '"' then ['\\', '"']
  else if c = '\\' then ['\\', '\\']
  else if c = '\n' then ['\\', 'n']
  else if c = '\r' then ['\\', 'r']
  else if c = '\t' then ['\\', 't']
  else if c = '\x08' then ['\\', 'b']
  else if c = '\x0c' then ['\\', 'f']
  else if c.toNat < 0x20 then
    ['\\', 'u', '0', '0', hexDigit (c.toNat / 16), hexDigit (c.toNat % 16)]
  else [c]

/-- Escape a whole string for inclusion in JSON output. -/
def escapeStr (s : String) : String :=
  String.mk (s.data.foldr (fun c acc => escapeChar c ++ acc) [])

/-- Join strings with a separator (used for JSON item lists and paths). -/
def joinWith (sep : String) : List String → String
  | [] => ""
  | [s] => s
  | s :: rest => s ++ sep ++ joinWith sep rest

/-- Indentation for nesting level `lvl` under `json.dump(..., indent=2)`. -/
def indentStr (lvl : Nat) : String :=
  String.mk (List.replicate (2 * lvl) ' ')

/-- Fuel-driven core of the JSON serializer. -/
def dumpsFuel : Nat → Nat → Json → String
  | 0, _, _ => ""
  | n + 1, lvl, j =>
    match j with
    | .null => "null"
    | .bool true => "true"
    | .bool false => "false"
    | .str s => "\"" ++ escapeStr s ++ "\""
    | .arr [] => "[]"
    | .arr xs =>
      "[\n" ++
        joinWith ",\n" (xs.map fun x => indentStr (lvl + 1) ++ dumpsFuel n (lvl + 1) x) ++
        "\n" ++ indentStr lvl ++ "]"
    | .obj [] => "\x7b\x7d"
    | .obj kvs =>
      "\x7b\n" ++
        joinWith ",\n" (kvs.map fun kv =>
          indentStr (lvl + 1) ++ "\"" ++ escapeStr kv.1 ++ "\": " ++ dumpsFuel n (lvl + 1) kv.2) ++
        "\n" ++ indentStr lvl ++ "\x7d"

/-- Serialize a JSON value the way
`json.dump(tree, f, ensure_ascii=False, indent=2)` renders it. -/
def dumps (j : Json) : String :=
  dumpsFuel (jsonSize j) 0 j

/-- Contents of the first plain file named `nm` among the entries, if any
(`Path.is_file()` succeeds exactly when this is `some`). -/
def lookupFile : List Entry → String → Option FileData
  | [], _ => none
  | .file n d :: rest, nm => if n = nm then some d else lookupFile rest nm
  | .dir _ _ :: rest, nm => lookupFile rest nm

/-- Bytes of a file as text (a JSON-valued file reads back as its
serialized form). -/
def readText : FileData → String
  | .text s => s
  | .jsonVal j => dumps j

/-- Model of `json.load` on a file's contents: a file written by
`json.dump` parses back to exactly the stored value; other text is
modelled as failing to parse. -/
def jsonLoad : FileData → Option Json
  | .jsonVal j => some j
  | .text _ => none

/-- Parse `.gitignore` contents: one entry per line, stripped of
surrounding whitespace, with blank lines and `#`-comments dropped. -/
def parseGitignoreLines (s : String) : List String :=
  ((charSplit '\n' s.data).map String.mk).filterMap fun line =>
    let e := pyStrip line
    if e = "" then none
    else if e.data.head? = some '#' then none
    else some e

/-- The `.gitignore` file directly inside the root, when the root exists
and has one (`Path(root).joinpath(".gitignore").is_file()`). -/
def gitignoreFileOf : Option (List Entry) → Option FileData
  | some es => lookupFile es ".gitignore"
  | none => none

/-- Whether some entry (file or directory) has the given name. -/
def containsEntryNamed (es : List Entry) (nm : String) : Bool :=
  es.any fun e => entryName e == nm

/-- Whether a directory entry has the given name (then `open(.., "w")`
on that name fails and the failure is swallowed). -/
def hasDirNamed (es : List Entry) (nm : String) : Bool :=
  es.any fun e => entryIsDir e && entryName e == nm

/-- Effect of writing `project_structure.json` into the root: replace the
contents of an existing file of that name, create it when absent, and
change nothing when a directory of that name blocks the write (the
`except` clause swallows the failure). -/
def writeResultFile (es : List Entry) (j : Json) : List Entry :=
  if containsEntryNamed es "project_structure.json" then
    es.map fun e =>
      match e with
      | .file n _ => if n = "project_structure.json" then .file n (.jsonVal j) else e
      | .dir _ _ => e
  else es ++ [.file "project_structure.json" (.jsonVal j)]

/-- Replace the contents of every plain file named `nm` (used to model an
outside edit of `.gitignore` between two scans). -/
def setFileData (es : List Entry) (nm : String) (d : FileData) : List Entry :=
  es.map fun e =>
    match e with
    | .file n _ => if n = nm then .file n d else e
    | .dir _ _ => e

/-- The fresh-scan tail of `get_structure`: extend the ignore set with
the built-in names, walk the tree, and write the sidecar file when
requested (write failures are swallowed). -/
def regenerate (es : List Entry) (gitignoreEntries : List String) (evs : List Event)
    (is_write_result : Bool) : ScanOutcome :=
  let ig := gitignoreEntries ++ defaultIgnore
  let tree := Json.obj [("root", Json.arr (walk_dir es [] ig))]
  if is_write_result then
    { result := Except.ok tree
      events := evs ++ [Event.walkedFS] ++
        (if hasDirNamed es "project_structure.json" then [] else [Event.wroteCache])
      fs := some (writeResultFile es tree) }
  else
    { result := Except.ok tree, events := evs ++ [Event.walkedFS], fs := some es }

/-- The Python `get_structure(root, is_follow_gitignore, force_regenerate,
is_write_result)`.  `root` is the path string passed by the caller (used in
the error message), `fsAt` is the directory listing that the path resolves
to (`none` when the path is missing or not a directory).  The `.gitignore`
read happens before root validation and before the cache check, exactly as
in the source. -/
def get_structure (root : String) (fsAt : Option (List Entry))
    (is_follow_gitignore : Bool) (force_regenerate : Bool)
    (is_write_result : Bool) : ScanOutcome :=
  let gitData := if is_follow_gitignore then gitignoreFileOf fsAt else none
  let ignoreSet := match gitData with
    | some d => parseGitignoreLines (readText d)
    | none => []
  let evs : List Event := match gitData with
    | some _ => [Event.readGitignore]
    | none => []
  match fsAt with
  | none =>
    { result := Except.error
        (PyErr.valueError ("'" ++ root ++ "' is not a directory or does not exist."))
      events := evs
      fs := none }
  | some es =>
    if force_regenerate then regenerate es ignoreSet evs is_write_result
    else
      match lookupFile es "project_structure.json" with
      | some d =>
        match jsonLoad d with
        | some j => { result := Except.ok j, events := evs ++ [Event.readCache], fs := some es }
        | none => regenerate es ignoreSet (evs ++ [Event.readCache]) is_write_result
      | none => regenerate es ignoreSet evs is_write_result

/-- Look up a field of a JSON object's field list (first occurrence). -/
def jField : List (String × Json) → String → Option Json
  | [], _ => none
  | (k, v) :: kvs, key => if k = key then some v else jField kvs key

/-- The `path` field of a node (empty string when absent). -/
def pathOf (j : Json) : String :=
  match j with
  | .obj kvs =>
    match jField kvs "path" with
    | some (.str s) => s
    | _ => ""
  | _ => ""

/-- The `type` field of a node (empty string when absent). -/
def typeOf (j : Json) : String :=
  match j with
  | .obj kvs =>
    match jField kvs "type" with
    | some (.str s) => s
    | _ => ""
  | _ => ""

/-- The `extension` field of a node, when present and a string. -/
def extOf (j : Json) : Option String :=
  match j with
  | .obj kvs =>
    match jField kvs "extension" with
    | some (.str s) => some s
    | _ => none
  | _ => none

/-- The `children` list of a directory node, when present. -/
def childrenOf (j : Json) : Option (List Json) :=
  match j with
  | .obj kvs =>
    match jField kvs "children" with
    | some (.arr xs) => some xs
    | _ => none
  | _ => none

/-- The top-level node list of a Scan Result (`result["root"]`). -/
def rootListOf (j : Json) : List Json :=
  match j with
  | .obj kvs =>
    match jField kvs "root" with
    | some (.arr xs) => xs
    | _ => []
  | _ => []

/-- The value inside a successful result (`Json.null` on error). -/
def okJson : Except PyErr Json → Json
  | .ok j => j
  | .error _ => Json.null

/-- Serialized form of a scan's returned value (empty on error); two
results are byte-for-byte identical JSON iff these strings are equal. -/
def resultDump (o : ScanOutcome) : String :=
  match o.result with
  | .ok j => dumps j
  | .error _ => ""

/-- Whether a result is an error of Python class `NotADirectoryError`. -/
def isNotADirError : Except PyErr Json → Bool
  | .error (.notADirectoryError _) => true
  | _ => false

/-- Fuel-driven collector: a top-level node list together with every
nested `children` list, at any depth. -/
def collectFuel : Nat → List Json → List (List Json)
  | 0, _ => []
  | n + 1, ns => ns :: ((ns.filterMap childrenOf).map (collectFuel n)).flatten

/-- Every node list of a tree: the given top-level list and every
`children` list of every directory node below it. -/
def collect (ns : List Json) : List (List Json) :=
  collectFuel (jsonListSize ns) ns

/-- Every node of a tree, at any depth. -/
def allNodesL (ns : List Json) : List Json :=
  (collect ns).flatten

/-- The final path segment of a node's `path` (the entry's name). -/
def nameOfNode (j : Json) : String :=
  (segments (pathOf j)).getLastD ""

/-- Ordering key of an emitted node, mirroring `entryKey` on the entry it
came from: files after directories, then case-insensitive name. -/
def nodeKey (j : Json) : Bool × String :=
  (typeOf j == "file", pyLower (nameOfNode j))

/-- Adjacent-pairs ordering check of one `children` list: directory nodes
before file nodes, names case-insensitively ascending within each group
(equivalently, `nodeKey`s non-decreasing). -/
def adjacentOrdered : List Json → Bool
  | [] => true
  | [_] => true
  | a :: b :: rest => keyLe (nodeKey a) (nodeKey b) && adjacentOrdered (b :: rest)

/-- Resolve a nonempty relative segment list against a directory listing:
the entry named by the final segment, reached through directories named
by the earlier segments. -/
def resolvePath : List Entry → List String → Option Entry
  | _, [] => none
  | es, [s] =>
    match es.find? (fun e => entryName e == s) with
    | some e => some e
    | none => none
  | es, s :: rest =>
    match es.find? (fun e => entryName e == s) with
    | some (.dir _ cs) => resolvePath cs rest
    | _ => none

/-- A realistic filesystem name: nonempty, no path separator, and not one
of the reserved names `.`/`..` (which `iterdir` never yields). -/
def validName (nm : String) : Bool :=
  nm ≠ "" && !nm.data.contains '/' && nm ≠ "." && nm ≠ ".."

/-- Duplicate-freedom of the names of a directory's entries (real
directories never contain two entries of the same name). -/
def namesNodup : List Entry → Bool
  | [] => true
  | e :: es => !es.any (fun x => entryName x == entryName e) && namesNodup es

/-- Fuel-driven well-formedness of a directory listing: valid, duplicate
free names at every level. -/
def wellFormedFuel : Nat → List Entry → Bool
  | 0, _ => false
  | n + 1, es =>
    namesNodup es &&
    es.all fun e =>
      validName (entryName e) &&
      match e with
      | .file _ _ => true
      | .dir _ cs => wellFormedFuel n cs

/-- Well-formedness of a directory listing as a real filesystem directory:
at every level, names are valid and pairwise distinct. -/
def wellFormed (es : List Entry) : Bool :=
  wellFormedFuel (entryListSize es) es

/-- Whether a POSIX path string is absolute (starts with `/`). -/
def posixAbsolute (p : String) : Bool :=
  p.data.head? == some '/'

/-- The `.gitignore` contribution to the ignore set of a scan of `es`
(mirrors the construction in `get_structure`). -/
def gitignoreEntriesOf (es : List Entry) (is_follow_gitignore : Bool) : List String :=
  match (if is_follow_gitignore then gitignoreFileOf (some es) else none) with
  | some d => parseGitignoreLines (readText d)
  | none => []

/-- The effective Ignore Set of a fresh scan of `es`: the `.gitignore`
contributions (when enabled) plus the built-in names. -/
def effectiveIgnore (es : List Entry) (is_follow_gitignore : Bool) : List String :=
  gitignoreEntriesOf es is_follow_gitignore ++ defaultIgnore

/-- The `readGitignore` event list of one call (nonempty exactly when the
`.gitignore` file is opened). -/
def gitignoreEvents (fsAt : Option (List Entry)) (is_follow_gitignore : Bool) : List Event :=
  match (if is_follow_gitignore then gitignoreFileOf fsAt else none) with
  | some _ => [Event.readGitignore]
  | none => []

/-- The scenario filesystem of the specification's worked example:
`src/main.py`, `src/__pycache__/cache.pyc`, `.git/HEAD`, `README.md`, a
`.gitignore` listing `build` and `build_output`, a `build/` directory and
a `build_output` file. -/
def c1FS : List Entry :=
  [Entry.dir "src" [Entry.file "main.py" (FileData.text ""),
                    Entry.dir "__pycache__" [Entry.file "cache.pyc" (FileData.text "")]],
   Entry.dir ".git" [Entry.file "HEAD" (FileData.text "")],
   Entry.file "README.md" (FileData.text ""),
   Entry.file ".gitignore" (FileData.text "build\n# comment\n\nbuild_output"),
   Entry.dir "build" [],
   Entry.file "build_output" (FileData.text "")]

/-- The tree a fresh scan of `c1FS` returns: three top-level nodes, not
two, because the `.gitignore` file itself is retained. -/
def c1Tree : Json :=
  Json.obj [("root", Json.arr
    [dirNode "src" [fileNode "src/main.py" ".py"],
     fileNode ".gitignore" "",
     fileNode "README.md" ".md"])]

/-- A root holding both a `.gitignore` and a parseable cache file. -/
def c2FS : List Entry :=
  [Entry.file ".gitignore" (FileData.text "x"),
   Entry.file "project_structure.json" (FileData.jsonVal (Json.str "cached"))]

/-- A root without a cache sidecar file. -/
def c4FS : List Entry := [Entry.file "a.txt" (FileData.text "")]

/-- A root where a directory named `project_structure.json` blocks the
cache write. -/
def c5FS : List Entry :=
  [Entry.dir "project_structure.json" [],
   Entry.dir "src" [],
   Entry.file ".gitignore" (FileData.text "")]


/-- The tree a fresh scan of `c4FS` returns. -/
def c4Tree : Json :=
  Json.obj [("root", Json.arr [fileNode "a.txt" ".txt"])]

/-- A root that already carries a cache sidecar file. -/
def c4bFS : List Entry :=
  [Entry.file "a.txt" (FileData.text ""),
   Entry.file "project_structure.json" (FileData.text "old")]

/-- The tree a fresh scan of `c4bFS` returns. -/
def c4bTree : Json :=
  Json.obj [("root", Json.arr
    [fileNode "a.txt" ".txt", fileNode "project_structure.json" ".json"])]

/-- A root exercising the extension rules of the specification. -/
def c9FS : List Entry :=
  [Entry.file "notes" (FileData.text ""),
   Entry.file "archive.tar.gz" (FileData.text "")]


theorem entrySize_pos (e : Entry) : 0 < entrySize e := by
  cases e <;> simp [entrySize]

theorem entryListSize_pos (es : List Entry) : 0 < entryListSize es := by
  cases es <;> simp [entryListSize]

theorem mem_insertEntry {x a : Entry} : ∀ {l : List Entry},
    x ∈ insertEntry a l ↔ x = a ∨ x ∈ l := by
  intro l
  induction l with
  | nil => simp [insertEntry]
  | cons b bs ih =>
    simp only [insertEntry]
    split
    · exact List.mem_cons
    · simp only [List.mem_cons, ih]
      tauto

theorem mem_sortEntries {x : Entry} : ∀ {es : List Entry},
    x ∈ sortEntries es ↔ x ∈ es := by
  intro es
  induction es with
  | nil => simp [sortEntries]
  | cons e es ih => simp [sortEntries, mem_insertEntry, ih, List.mem_cons]

theorem entrySize_lt_of_mem {e : Entry} {es : List Entry} (h : e ∈ es) :
    entrySize e < entryListSize es := by
  induction es with
  | nil => cases h
  | cons x xs ih =>
    rcases List.mem_cons.mp h with rfl | h2
    · simp [entryListSize]; omega
    · have := ih h2; simp [entryListSize]; omega

theorem entryListSize_lt_of_dir_mem {nm : String} {cs : List Entry} {es : List Entry}
    (h : Entry.dir nm cs ∈ es) : entryListSize cs < entryListSize es := by
  have h1 := entrySize_lt_of_mem h
  simp [entrySize] at h1
  omega

theorem walkFuel_mono : ∀ (n m : Nat) (es : List Entry) (pre ignore : List String),
    entryListSize es ≤ n → entryListSize es ≤ m →
    walkFuel n es pre ignore = walkFuel m es pre ignore := by
  intro n
  induction n with
  | zero =>
    intro m es pre ignore h1 _
    exact absurd h1 (by have := entryListSize_pos es; omega)
  | succ n ih =>
    intro m es pre ignore h1 h2
    cases m with
    | zero => exact absurd h2 (by have := entryListSize_pos es; omega)
    | succ m =>
      simp only [walkFuel]
      apply List.filterMap_congr
      intro e he
      have hmem : e ∈ es := mem_sortEntries.mp he
      have hsz := entrySize_lt_of_mem hmem
      cases e with
      | file nm d => rfl
      | dir nm cs =>
        simp only [entrySize] at hsz
        have hrec : walkFuel n cs (pre ++ [nm]) (igOr ignore) =
            walkFuel m cs (pre ++ [nm]) (igOr ignore) :=
          ih m cs (pre ++ [nm]) (igOr ignore) (by omega) (by omega)
        simp [entryName, hrec]

theorem walk_dir_unfold (es : List Entry) (pre ignore : List String) :
    walk_dir es pre ignore =
      (sortEntries es).filterMap (fun e =>
        if (igOr ignore).contains (entryName e) then none
        else
          match e with
          | .dir nm cs =>
            some (dirNode (joinPath (pre ++ [nm])) (walk_dir cs (pre ++ [nm]) (igOr ignore)))
          | .file nm _ =>
            if pySuffix nm = ".pyc" then none
            else some (fileNode (joinPath (pre ++ [nm])) (pySuffix nm))) := by
  show walkFuel (entryListSize es) es pre ignore = _
  cases h : entryListSize es with
  | zero => exact absurd h (by have := entryListSize_pos es; omega)
  | succ k =>
    simp only [walkFuel]
    apply List.filterMap_congr
    intro e he
    have hmem := mem_sortEntries.mp he
    have hsz := entrySize_lt_of_mem hmem
    rw [h] at hsz
    cases e with
    | file nm d => rfl
    | dir nm cs =>
      simp only [entrySize] at hsz
      have hrec : walkFuel k cs (pre ++ [nm]) (igOr ignore) =
          walkFuel (entryListSize cs) cs (pre ++ [nm]) (igOr ignore) :=
        walkFuel_mono _ _ _ _ _ (by omega) (by omega)
      simp [entryName, hrec, walk_dir]

theorem charSplit_ne_nil (c : Char) : ∀ l : List Char, charSplit c l ≠ [] := by
  intro l
  cases l with
  | nil => simp [charSplit]
  | cons x xs =>
    simp only [charSplit]
    cases charSplit c xs with
    | nil => simp
    | cons r rs => by_cases hc : x = c <;> simp [hc]

theorem charSplit_not_mem {c : Char} : ∀ {l : List Char}, c ∉ l → charSplit c l = [l] := by
  intro l h
  induction l with
  | nil => simp [charSplit]
  | cons x xs ih =>
    have hx : ¬ x = c := fun hh => h (hh ▸ List.mem_cons_self x xs)
    have hxs : c ∉ xs := fun hh => h (List.mem_cons_of_mem x hh)
    simp only [charSplit, ih hxs]
    simp [hx]

theorem charSplit_append {c : Char} : ∀ {xs : List Char} (ys : List Char), c ∉ xs →
    charSplit c (xs ++ c :: ys) = xs :: charSplit c ys := by
  intro xs
  induction xs with
  | nil =>
    intro ys _
    simp only [List.nil_append, charSplit]
    cases h : charSplit c ys with
    | nil => exact absurd h (charSplit_ne_nil c ys)
    | cons r rs => simp
  | cons x xs ih =>
    intro ys h
    have hx : ¬ x = c := fun hh => h (hh ▸ List.mem_cons_self x xs)
    have hxs : c ∉ xs := fun hh => h (List.mem_cons_of_mem x hh)
    simp only [List.cons_append, charSplit, List.append_eq]
    rw [ih ys hxs]
    simp [hx]

theorem segments_joinPath : ∀ (segs : List String),
    (∀ x ∈ segs, ('/' : Char) ∉ x.data) → segs ≠ [] →
    segments (joinPath segs) = segs := by
  intro segs
  induction segs with
  | nil => intro _ hne; exact absurd rfl hne
  | cons s rest ih =>
    intro hns _
    have hs : ('/' : Char) ∉ s.data := hns s (List.mem_cons_self s rest)
    cases rest with
    | nil => simp [joinPath, segments, charSplit_not_mem hs]
    | cons t rest2 =>
      have hrest : ∀ x ∈ t :: rest2, ('/' : Char) ∉ x.data :=
        fun x hx => hns x (List.mem_cons_of_mem s hx)
      have hdata : (joinPath (s :: t :: rest2)).data =
          s.data ++ '/' :: (joinPath (t :: rest2)).data := by
        show (s ++ "/" ++ joinPath (t :: rest2)).data = _
        rw [String.data_append, String.data_append]
        simp
      simp only [segments] at ih ⊢
      rw [hdata, charSplit_append _ hs, List.map_cons]
      rw [ih hrest (by simp)]

theorem charListLt_asymm : ∀ {a b : List Char},
    charListLt a b = true → charListLt b a = true → False := by
  intro a
  induction a with
  | nil => intro b h1 h2; cases b <;> simp [charListLt] at h1 h2
  | cons x xs ih =>
    intro b h1 h2
    cases b with
    | nil => simp [charListLt] at h1
    | cons y ys =>
      simp only [charListLt] at h1 h2
      by_cases h : x.toNat < y.toNat
      · have h' : ¬ y.toNat < x.toNat := by omega
        simp [h, h'] at h2
      · by_cases h' : y.toNat < x.toNat
        · simp [h, h'] at h1
        · simp [h, h'] at h1 h2
          exact ih h1 h2

theorem charListLt_linear : ∀ {a c : List Char}, charListLt a c = true →
    ∀ b : List Char, charListLt a b = true ∨ charListLt b c = true := by
  intro a
  induction a with
  | nil =>
    intro c hac b
    cases c with
    | nil => simp [charListLt] at hac
    | cons z zs =>
      cases b with
      | nil => right; simp [charListLt]
      | cons y ys => left; simp [charListLt]
  | cons x xs ih =>
    intro c hac b
    cases c with
    | nil => simp [charListLt] at hac
    | cons z zs =>
      cases b with
      | nil => right; simp [charListLt]
      | cons y ys =>
        simp only [charListLt] at hac ⊢
        by_cases hxz : x.toNat < z.toNat
        · by_cases hxy : x.toNat < y.toNat
          · left; simp [hxy]
          · right
            have hyz : y.toNat < z.toNat := by omega
            simp [hyz]
        · by_cases hzx : z.toNat < x.toNat
          · simp [hxz, hzx] at hac
          · simp only [hxz, hzx, if_false] at hac
            by_cases hxy : x.toNat < y.toNat
            · left; simp [hxy]
            · by_cases hyx : y.toNat < x.toNat
              · right
                have hyz : y.toNat < z.toNat := by omega
                simp [hyz]
              · rcases ih hac ys with h | h
                · left; simp [hxy, hyx, h]
                · right
                  have h1 : ¬ y.toNat < z.toNat := by omega
                  have h2 : ¬ z.toNat < y.toNat := by omega
                  simp [h1, h2, h]

theorem keyLt_asymm : ∀ {a b : Bool × String},
    keyLt a b = true → keyLt b a = true → False := by
  intro ⟨a1, a2⟩ ⟨b1, b2⟩ h1 h2
  cases a1 <;> cases b1 <;> simp [keyLt, strLt] at h1 h2 <;>
    exact charListLt_asymm h1 h2

theorem keyLt_linear : ∀ {a c : Bool × String}, keyLt a c = true →
    ∀ b : Bool × String, keyLt a b = true ∨ keyLt b c = true := by
  intro ⟨a1, a2⟩ ⟨c1, c2⟩ hac ⟨b1, b2⟩
  cases a1 <;> cases b1 <;> cases c1 <;> simp [keyLt, strLt] at hac ⊢ <;>
    exact charListLt_linear hac b2.data

theorem keyLe_total (a b : Bool × String) : keyLe a b = true ∨ keyLe b a = true := by
  cases hba : keyLt b a with
  | false => left; simp [keyLe, hba]
  | true =>
    right
    cases hab : keyLt a b with
    | false => simp [keyLe, hab]
    | true => exact absurd (keyLt_asymm hab hba) not_false

theorem keyLe_trans {a b c : Bool × String} (h1 : keyLe a b = true) (h2 : keyLe b c = true) :
    keyLe a c = true := by
  simp only [keyLe, Bool.not_eq_true'] at h1 h2 ⊢
  cases hca : keyLt c a with
  | false => rfl
  | true =>
    rcases keyLt_linear hca b with h | h
    · rw [h2] at h; cases h
    · rw [h1] at h; cases h

/-- The ordering relation that `sortEntries` establishes. -/
def keyRel (a b : Entry) : Prop :=
  keyLe (entryKey a) (entryKey b) = true

theorem pairwise_insertEntry {a : Entry} {l : List Entry}
    (h : l.Pairwise keyRel) : (insertEntry a l).Pairwise keyRel := by
  induction l with
  | nil => simp [insertEntry]
  | cons b bs ih =>
    rcases List.pairwise_cons.mp h with ⟨hb, hbs⟩
    simp only [insertEntry]
    split
    · next hle =>
      apply List.pairwise_cons.mpr
      refine ⟨?_, h⟩
      intro x hx
      rcases List.mem_cons.mp hx with rfl | hx2
      · exact hle
      · exact keyLe_trans hle (hb x hx2)
    · next hgt =>
      apply List.pairwise_cons.mpr
      refine ⟨?_, ih hbs⟩
      intro x hx
      rcases mem_insertEntry.mp hx with rfl | hx2
      · rcases keyLe_total (entryKey b) (entryKey x) with hba | hab
        · exact hba
        · exact absurd hab hgt
      · exact hb x hx2

theorem pairwise_sortEntries (es : List Entry) : (sortEntries es).Pairwise keyRel := by
  induction es with
  | nil => simp [sortEntries]
  | cons e es ih => exact pairwise_insertEntry ih

theorem jsonListSize_pos (ns : List Json) : 0 < jsonListSize ns := by
  cases ns <;> simp [jsonListSize]

theorem jsonSize_lt_of_mem {x : Json} {ns : List Json} (h : x ∈ ns) :
    jsonSize x < jsonListSize ns := by
  induction ns with
  | nil => cases h
  | cons y ys ih =>
    rcases List.mem_cons.mp h with rfl | h2
    · simp [jsonListSize]; omega
    · have := ih h2; simp [jsonListSize]; omega

theorem jField_mem : ∀ {kvs : List (String × Json)} {k : String} {v : Json},
    jField kvs k = some v → ∃ k', (k', v) ∈ kvs := by
  intro kvs
  induction kvs with
  | nil => intro k v h; cases h
  | cons kv rest ih =>
    intro k v h
    rcases kv with ⟨k0, v0⟩
    simp only [jField] at h
    split at h
    · cases h; exact ⟨k0, List.mem_cons_self _ _⟩
    · rcases ih h with ⟨k', hk'⟩
      exact ⟨k', List.mem_cons_of_mem _ hk'⟩

theorem jsonSize_lt_of_field_mem : ∀ {kvs : List (String × Json)} {k : String} {v : Json},
    (k, v) ∈ kvs → jsonSize v < jsonFieldsSize kvs := by
  intro kvs
  induction kvs with
  | nil => intro k v h; cases h
  | cons kv rest ih =>
    intro k v h
    rcases kv with ⟨k0, v0⟩
    rcases List.mem_cons.mp h with h1 | h2
    · cases h1
      simp [jsonFieldsSize]; omega
    · have := ih h2
      simp [jsonFieldsSize]; omega

theorem jsonListSize_lt_of_childrenOf {j : Json} {cs : List Json}
    (h : childrenOf j = some cs) : jsonListSize cs < jsonSize j := by
  cases j with
  | null => simp [childrenOf] at h
  | bool b => simp [childrenOf] at h
  | str s => simp [childrenOf] at h
  | arr xs => simp [childrenOf] at h
  | obj kvs =>
    cases hf : jField kvs "children" with
    | none => simp [childrenOf, hf] at h
    | some v =>
      cases v with
      | null => simp [childrenOf, hf] at h
      | bool b => simp [childrenOf, hf] at h
      | str s => simp [childrenOf, hf] at h
      | obj kvs2 => simp [childrenOf, hf] at h
      | arr xs =>
        have hcs : xs = cs := by simpa [childrenOf, hf] using h
        subst hcs
        rcases jField_mem hf with ⟨k', hk'⟩
        have h1 := jsonSize_lt_of_field_mem hk'
        simp only [jsonSize] at h1 ⊢
        omega

theorem collectFuel_mono : ∀ (n m : Nat) (ns : List Json),
    jsonListSize ns ≤ n → jsonListSize ns ≤ m → collectFuel n ns = collectFuel m ns := by
  intro n
  induction n with
  | zero => intro m ns h1 _; exact absurd h1 (by have := jsonListSize_pos ns; omega)
  | succ n ih =>
    intro m ns h1 h2
    cases m with
    | zero => exact absurd h2 (by have := jsonListSize_pos ns; omega)
    | succ m =>
      simp only [collectFuel]
      congr 1
      congr 1
      apply List.map_congr_left
      intro cs hcs
      rcases List.mem_filterMap.mp hcs with ⟨j, hj, hjc⟩
      have ha := jsonSize_lt_of_mem hj
      have hb := jsonListSize_lt_of_childrenOf hjc
      exact ih m cs (by omega) (by omega)

theorem collect_unfold (ns : List Json) :
    collect ns = ns :: ((ns.filterMap childrenOf).map collect).flatten := by
  show collectFuel (jsonListSize ns) ns = _
  cases h : jsonListSize ns with
  | zero => exact absurd h (by have := jsonListSize_pos ns; omega)
  | succ k =>
    simp only [collectFuel]
    congr 1
    congr 1
    apply List.map_congr_left
    intro cs hcs
    rcases List.mem_filterMap.mp hcs with ⟨j, hj, hjc⟩
    have ha := jsonSize_lt_of_mem hj
    have hb := jsonListSize_lt_of_childrenOf hjc
    rw [h] at ha
    exact collectFuel_mono _ _ _ (by omega) (le_refl _)

theorem mem_collect {l : List Json} {ns : List Json} :
    l ∈ collect ns ↔
      l = ns ∨ ∃ j ∈ ns, ∃ cs, childrenOf j = some cs ∧ l ∈ collect cs := by
  rw [collect_unfold ns]
  simp only [List.mem_cons, List.mem_flatten, List.mem_map, List.mem_filterMap]
  constructor
  · rintro (rfl | ⟨L, ⟨cs, ⟨j, hj, hjc⟩, rfl⟩, hl⟩)
    · exact Or.inl rfl
    · exact Or.inr ⟨j, hj, cs, hjc, hl⟩
  · rintro (rfl | ⟨j, hj, cs, hjc, hl⟩)
    · exact Or.inl rfl
    · exact Or.inr ⟨collect cs, ⟨cs, ⟨j, hj, hjc⟩, rfl⟩, hl⟩

theorem mem_allNodesL {x : Json} {ns : List Json} :
    x ∈ allNodesL ns ↔ ∃ l ∈ collect ns, x ∈ l := by
  simp [allNodesL, List.mem_flatten]

theorem pathOf_dirNode (p : String) (cs : List Json) : pathOf (dirNode p cs) = p := rfl

theorem typeOf_dirNode (p : String) (cs : List Json) : typeOf (dirNode p cs) = "dir" := rfl

theorem childrenOf_dirNode (p : String) (cs : List Json) : childrenOf (dirNode p cs) = some cs := rfl

theorem extOf_dirNode (p : String) (cs : List Json) : extOf (dirNode p cs) = none := rfl

theorem pathOf_fileNode (p ext : String) : pathOf (fileNode p ext) = p := rfl

theorem typeOf_fileNode (p ext : String) : typeOf (fileNode p ext) = "file" := rfl

theorem childrenOf_fileNode (p ext : String) : childrenOf (fileNode p ext) = none := rfl

theorem extOf_fileNode (p ext : String) : extOf (fileNode p ext) = some ext := rfl

theorem igOr_eq {ignore : List String} (h : ignore.isEmpty = false) : igOr ignore = ignore := by
  simp [igOr, h]

theorem validName_ne_empty {nm : String} (h : validName nm = true) : nm ≠ "" := by
  simp [validName] at h
  exact h.1.1.1

theorem validName_no_slash {nm : String} (h : validName nm = true) : ('/' : Char) ∉ nm.data := by
  simp [validName] at h
  exact h.1.1.2

theorem validName_ne_dotdot {nm : String} (h : validName nm = true) : nm ≠ ".." := by
  simp [validName] at h
  exact h.2

theorem allCongr {α : Type} {l : List α} {f g : α → Bool} (h : ∀ x ∈ l, f x = g x) :
    l.all f = l.all g := by
  induction l with
  | nil => rfl
  | cons x xs ih =>
    simp only [List.all_cons, h x (List.mem_cons_self x xs),
      ih (fun y hy => h y (List.mem_cons_of_mem x hy))]

theorem wellFormedFuel_mono : ∀ (n m : Nat) (es : List Entry),
    entryListSize es ≤ n → entryListSize es ≤ m →
    wellFormedFuel n es = wellFormedFuel m es := by
  intro n
  induction n with
  | zero => intro m es h1 _; exact absurd h1 (by have := entryListSize_pos es; omega)
  | succ n ih =>
    intro m es h1 h2
    cases m with
    | zero => exact absurd h2 (by have := entryListSize_pos es; omega)
    | succ m =>
      simp only [wellFormedFuel]
      congr 1
      apply allCongr
      intro e he
      have hsz := entrySize_lt_of_mem he
      cases e with
      | file nm d => rfl
      | dir nm cs =>
        simp only [entrySize] at hsz
        simp [ih m cs (by omega) (by omega)]

theorem wellFormed_unfold (es : List Entry) :
    wellFormed es = (namesNodup es && es.all fun e =>
      validName (entryName e) &&
      match e with
      | .file _ _ => true
      | .dir _ cs => wellFormed cs) := by
  show wellFormedFuel (entryListSize es) es = _
  cases h : entryListSize es with
  | zero => exact absurd h (by have := entryListSize_pos es; omega)
  | succ k =>
    simp only [wellFormedFuel]
    congr 1
    apply allCongr
    intro e he
    have hsz := entrySize_lt_of_mem he
    rw [h] at hsz
    cases e with
    | file nm d => rfl
    | dir nm cs =>
      simp only [entrySize] at hsz
      have heq : wellFormedFuel k cs = wellFormed cs :=
        wellFormedFuel_mono k (entryListSize cs) cs (by omega) (le_refl _)
      simp [heq]

theorem wellFormed_nodup {es : List Entry} (h : wellFormed es = true) :
    namesNodup es = true := by
  rw [wellFormed_unfold, Bool.and_eq_true] at h
  exact h.1

theorem wellFormed_validName {es : List Entry} (h : wellFormed es = true) :
    ∀ e ∈ es, validName (entryName e) = true := by
  rw [wellFormed_unfold, Bool.and_eq_true] at h
  have h2 := h.2
  rw [List.all_eq_true] at h2
  intro e he
  have h3 := h2 e he
  rw [Bool.and_eq_true] at h3
  exact h3.1

theorem wellFormed_dir {es : List Entry} {nm : String} {cs : List Entry}
    (h : wellFormed es = true) (hm : Entry.dir nm cs ∈ es) : wellFormed cs = true := by
  rw [wellFormed_unfold, Bool.and_eq_true] at h
  have h2 := h.2
  rw [List.all_eq_true] at h2
  have h3 := h2 _ hm
  rw [Bool.and_eq_true] at h3
  exact h3.2

theorem mem_walk_dir {node : Json} {es : List Entry} {pre ig : List String}
    (hig : ig.isEmpty = false) :
    node ∈ walk_dir es pre ig ↔
      ∃ e ∈ sortEntries es, entryName e ∉ ig ∧
        ((∃ nm cs, e = Entry.dir nm cs ∧
            node = dirNode (joinPath (pre ++ [nm])) (walk_dir cs (pre ++ [nm]) ig)) ∨
         (∃ nm d, e = Entry.file nm d ∧ pySuffix nm ≠ ".pyc" ∧
            node = fileNode (joinPath (pre ++ [nm])) (pySuffix nm))) := by
  rw [walk_dir_unfold, igOr_eq hig, List.mem_filterMap]
  constructor
  · rintro ⟨e, he, hstep⟩
    by_cases hc : entryName e ∈ ig
    · simp [hc] at hstep
    · refine ⟨e, he, hc, ?_⟩
      cases e with
      | dir nm cs =>
        simp [hc] at hstep
        exact Or.inl ⟨nm, cs, rfl, hstep.symm⟩
      | file nm d =>
        by_cases hp : pySuffix nm = ".pyc"
        · simp [hc, hp] at hstep
        · simp [hc, hp] at hstep
          exact Or.inr ⟨nm, d, rfl, hp, hstep.symm⟩
  · rintro ⟨e, he, hc, hcase⟩
    refine ⟨e, he, ?_⟩
    rcases hcase with ⟨nm, cs, rfl, rfl⟩ | ⟨nm, d, rfl, hp, rfl⟩
    · have hc2 : nm ∉ ig := by simpa [entryName] using hc
      simp [entryName, hc2]
    · have hc2 : nm ∉ ig := by simpa [entryName] using hc
      simp [entryName, hc2, hp]

theorem resolvePath_single (es : List Entry) (s : String) :
    resolvePath es [s] = es.find? (fun e => entryName e == s) := by
  cases h : es.find? (fun e => entryName e == s) with
  | none => simp [resolvePath, h]
  | some e => simp [resolvePath, h]

theorem find?_name_of_nodup {es : List Entry} {e : Entry} {nm : String}
    (hn : namesNodup es = true) (he : e ∈ es) (hname : entryName e = nm) :
    es.find? (fun x => entryName x == nm) = some e := by
  induction es with
  | nil => cases he
  | cons a rest ih =>
    simp only [namesNodup, Bool.and_eq_true] at hn
    rcases hn with ⟨hna, hnrest⟩
    rcases List.mem_cons.mp he with rfl | h2
    · rw [List.find?_cons_of_pos]
      simp [hname]
    · have hne : (entryName a == nm) = false := by
        cases hb : (entryName a == nm)
        · rfl
        · exfalso
          have heq : entryName a = nm := eq_of_beq hb
          have hany : rest.any (fun x => entryName x == entryName a) = true := by
            rw [List.any_eq_true]
            exact ⟨e, h2, by rw [heq, hname]; exact beq_self_eq_true _⟩
          rw [hany] at hna
          simp at hna
      rw [List.find?_cons_of_neg]
      · exact ih hnrest h2
      · simp [hne]

theorem getLastD_segments_joinPath {pre : List String} {nm : String}
    (hpre : ∀ x ∈ pre, validName x = true) (hnm : validName nm = true) :
    (segments (joinPath (pre ++ [nm]))).getLastD "" = nm := by
  have hall : ∀ x ∈ pre ++ [nm], ('/' : Char) ∉ x.data := by
    intro x hx
    rcases List.mem_append.mp hx with h | h
    · exact validName_no_slash (hpre x h)
    · have hx2 : x = nm := by simpa using h
      subst hx2
      exact validName_no_slash hnm
  rw [segments_joinPath _ hall (by simp)]
  exact List.getLastD_concat _ _ _

theorem getLastD_irrel {α : Type} : ∀ {s : List α}, s ≠ [] → ∀ (a b : α),
    s.getLastD a = s.getLastD b := by
  intro s h a b
  cases s with
  | nil => exact absurd rfl h
  | cons x xs => rfl

theorem resolvePath_cons_dir {es : List Entry} {nm : String} {cs : List Entry} {s : List String}
    (hn : namesNodup es = true) (hm : Entry.dir nm cs ∈ es) (hs : s ≠ []) :
    resolvePath es (nm :: s) = resolvePath cs s := by
  cases s with
  | nil => exact absurd rfl hs
  | cons s0 rest =>
    have hname : entryName (Entry.dir nm cs) = nm := rfl
    have hf := find?_name_of_nodup hn hm hname
    simp [resolvePath, hf]

theorem resolvePath_single_isSome {es : List Entry} {e : Entry} (he : e ∈ es) :
    (resolvePath es [entryName e]).isSome = true := by
  rw [resolvePath_single, List.find?_isSome]
  exact ⟨e, he, by simp⟩

theorem walk_nodes_spec : ∀ (N : Nat) {es : List Entry} {pre ig : List String},
    entryListSize es ≤ N → wellFormed es = true →
    (∀ x ∈ pre, validName x = true) → ig.isEmpty = false →
    ∀ node ∈ allNodesL (walk_dir es pre ig),
      ∃ s : List String, s ≠ [] ∧
        (∀ x ∈ s, validName x = true ∧ x ∉ ig) ∧
        pathOf node = joinPath (pre ++ s) ∧
        (resolvePath es s).isSome = true ∧
        ((typeOf node = "dir" ∧ extOf node = none) ∨
         (typeOf node = "file" ∧ extOf node = some (pySuffix (s.getLastD "")) ∧
          pySuffix (s.getLastD "") ≠ ".pyc")) := by
  intro N
  induction N with
  | zero =>
    intro es pre ig h1 _ _ _
    exact fun node hnode => absurd h1 (by have := entryListSize_pos es; omega)
  | succ N ih =>
    intro es pre ig hsz hwf hpre hig node hnode
    rcases mem_allNodesL.mp hnode with ⟨l, hl, hnl⟩
    rcases mem_collect.mp hl with rfl | ⟨j, hj, cs0, hjc, hlc⟩
    · rcases (mem_walk_dir hig).mp hnl with ⟨e, he, hnin, hcase⟩
      have hee : e ∈ es := mem_sortEntries.mp he
      have hval := wellFormed_validName hwf e hee
      rcases hcase with ⟨nm, cs, rfl, rfl⟩ | ⟨nm, d, rfl, hp, rfl⟩
      · refine ⟨[nm], by simp, ?_, ?_, ?_, Or.inl ?_⟩
        · intro x hx
          have hx2 : x = nm := by simpa using hx
          subst hx2
          exact ⟨by simpa [entryName] using hval, by simpa [entryName] using hnin⟩
        · simp [pathOf_dirNode]
        · have hres := resolvePath_single_isSome hee
          simpa [entryName] using hres
        · exact ⟨typeOf_dirNode _ _, extOf_dirNode _ _⟩
      · refine ⟨[nm], by simp, ?_, ?_, ?_, Or.inr ?_⟩
        · intro x hx
          have hx2 : x = nm := by simpa using hx
          subst hx2
          exact ⟨by simpa [entryName] using hval, by simpa [entryName] using hnin⟩
        · simp [pathOf_fileNode]
        · have hres := resolvePath_single_isSome hee
          simpa [entryName] using hres
        · refine ⟨typeOf_fileNode _ _, ?_, ?_⟩
          · simp [extOf_fileNode]
          · simpa using hp
    · rcases (mem_walk_dir hig).mp hj with ⟨e, he, hnin, hcase⟩
      have hee : e ∈ es := mem_sortEntries.mp he
      have hval := wellFormed_validName hwf e hee
      rcases hcase with ⟨nm, cs, rfl, rfl⟩ | ⟨nm, d, rfl, hp, rfl⟩
      · have hcs0 : cs0 = walk_dir cs (pre ++ [nm]) ig := by
          rw [childrenOf_dirNode] at hjc
          exact (Option.some.inj hjc).symm
        subst hcs0
        have hwf' : wellFormed cs = true := wellFormed_dir hwf hee
        have hpre' : ∀ x ∈ pre ++ [nm], validName x = true := by
          intro x hx
          rcases List.mem_append.mp hx with h | h
          · exact hpre x h
          · have hx2 : x = nm := by simpa using h
            subst hx2
            simpa [entryName] using hval
        have hszcs : entryListSize cs ≤ N := by
          have h1 := entrySize_lt_of_mem hee
          simp only [entrySize] at h1
          omega
        have hnode' : node ∈ allNodesL (walk_dir cs (pre ++ [nm]) ig) :=
          mem_allNodesL.mpr ⟨l, hlc, hnl⟩
        rcases ih hszcs hwf' hpre' hig node hnode' with ⟨s, hs0, hs1, hs2, hs3, hs4⟩
        refine ⟨nm :: s, by simp, ?_, ?_, ?_, ?_⟩
        · intro x hx
          rcases List.mem_cons.mp hx with rfl | hx2
          · exact ⟨by simpa [entryName] using hval, by simpa [entryName] using hnin⟩
          · exact hs1 x hx2
        · rw [hs2, List.append_assoc]
          rfl
        · have hrp : resolvePath es (nm :: s) = resolvePath cs s :=
            resolvePath_cons_dir (wellFormed_nodup hwf) hee hs0
          rw [hrp]
          exact hs3
        · have hlast : (nm :: s).getLastD "" = s.getLastD "" := by
            rw [List.getLastD_cons]
            exact getLastD_irrel hs0 nm ""
          rw [hlast]
          exact hs4
      · rw [childrenOf_fileNode] at hjc
        cases hjc

theorem step_nodeKey {pre ig : List String} {a : Entry} {b : Json}
    (hpre : ∀ x ∈ pre, validName x = true) (hval : validName (entryName a) = true)
    (hstep : (if ig.contains (entryName a) then none
      else
        match a with
        | .dir nm cs => some (dirNode (joinPath (pre ++ [nm])) (walk_dir cs (pre ++ [nm]) ig))
        | .file nm _ =>
          if pySuffix nm = ".pyc" then none
          else some (fileNode (joinPath (pre ++ [nm])) (pySuffix nm))) = some b) :
    nodeKey b = entryKey a := by
  by_cases hc : entryName a ∈ ig
  · simp [hc] at hstep
  · cases a with
    | dir nm cs =>
      have hnm : validName nm = true := by simpa [entryName] using hval
      simp [hc] at hstep
      rw [← hstep]
      show (("dir" == "file" : Bool),
          pyLower ((segments (joinPath (pre ++ [nm]))).getLastD "")) =
        (!(entryIsDir (Entry.dir nm cs)), pyLower (entryName (Entry.dir nm cs)))
      rw [getLastD_segments_joinPath hpre hnm]
      rfl
    | file nm d =>
      have hnm : validName nm = true := by simpa [entryName] using hval
      by_cases hp : pySuffix nm = ".pyc"
      · simp [hc, hp] at hstep
      · simp [hc, hp] at hstep
        rw [← hstep]
        show (("file" == "file" : Bool),
            pyLower ((segments (joinPath (pre ++ [nm]))).getLastD "")) =
          (!(entryIsDir (Entry.file nm d)), pyLower (entryName (Entry.file nm d)))
        rw [getLastD_segments_joinPath hpre hnm]
        rfl

theorem adjacentOrdered_of_pairwise : ∀ {l : List Json},
    l.Pairwise (fun a b => keyLe (nodeKey a) (nodeKey b) = true) →
    adjacentOrdered l = true := by
  intro l h
  induction l with
  | nil => rfl
  | cons a rest ih =>
    rcases List.pairwise_cons.mp h with ⟨ha, hrest⟩
    cases rest with
    | nil => rfl
    | cons b rest2 =>
      simp only [adjacentOrdered, Bool.and_eq_true]
      exact ⟨ha b (List.mem_cons_self _ _), ih hrest⟩

theorem walk_ordered : ∀ (N : Nat) {es : List Entry} {pre ig : List String},
    entryListSize es ≤ N → wellFormed es = true →
    (∀ x ∈ pre, validName x = true) → ig.isEmpty = false →
    ∀ l ∈ collect (walk_dir es pre ig), adjacentOrdered l = true := by
  intro N
  induction N with
  | zero =>
    intro es pre ig h1 _ _ _ l hl
    exact absurd h1 (by have := entryListSize_pos es; omega)
  | succ N ih =>
    intro es pre ig hsz hwf hpre hig l hl
    rcases mem_collect.mp hl with rfl | ⟨j, hj, cs0, hjc, hlc⟩
    · apply adjacentOrdered_of_pairwise
      rw [walk_dir_unfold, igOr_eq hig]
      have hpw := pairwise_sortEntries es
      rw [List.Pairwise.and_mem] at hpw
      apply List.Pairwise.filterMap _ ?_ hpw
      intro a a' hR b hb b' hb'
      rcases hR with ⟨ha, ha', hrel⟩
      rw [Option.mem_def] at hb hb'
      have k1 : nodeKey b = entryKey a :=
        step_nodeKey hpre (wellFormed_validName hwf a (mem_sortEntries.mp ha)) hb
      have k2 : nodeKey b' = entryKey a' :=
        step_nodeKey hpre (wellFormed_validName hwf a' (mem_sortEntries.mp ha')) hb'
      rw [k1, k2]
      exact hrel
    · rcases (mem_walk_dir hig).mp hj with ⟨e, he, hnin, hcase⟩
      have hee : e ∈ es := mem_sortEntries.mp he
      rcases hcase with ⟨nm, cs, rfl, rfl⟩ | ⟨nm, d, rfl, hp, rfl⟩
      · have hcs0 : cs0 = walk_dir cs (pre ++ [nm]) ig := by
          rw [childrenOf_dirNode] at hjc
          exact (Option.some.inj hjc).symm
        subst hcs0
        have hval := wellFormed_validName hwf _ hee
        have hpre' : ∀ x ∈ pre ++ [nm], validName x = true := by
          intro x hx
          rcases List.mem_append.mp hx with h | h
          · exact hpre x h
          · have hx2 : x = nm := by simpa using h
            subst hx2
            simpa [entryName] using hval
        have hszcs : entryListSize cs ≤ N := by
          have h1 := entrySize_lt_of_mem hee
          simp only [entrySize] at h1
          omega
        exact ih hszcs (wellFormed_dir hwf hee) hpre' hig l hlc
      · rw [childrenOf_fileNode] at hjc
        cases hjc

theorem mem_gitignoreEvents {fsAt : Option (List Entry)} {f : Bool} {ev : Event}
    (h : ev ∈ gitignoreEvents fsAt f) : ev = Event.readGitignore := by
  unfold gitignoreEvents at h
  cases hm : (if f then gitignoreFileOf fsAt else none) with
  | none => simp [hm] at h
  | some d => simp [hm] at h; exact h

theorem effectiveIgnore_ne_empty (es : List Entry) (follow : Bool) :
    (gitignoreEntriesOf es follow ++ defaultIgnore).isEmpty = false := by
  cases hg : gitignoreEntriesOf es follow with
  | nil => rfl
  | cons a l => rfl

theorem regenerate_result (es : List Entry) (g : List String) (evs : List Event) (w : Bool) :
    (regenerate es g evs w).result =
      Except.ok (Json.obj [("root", Json.arr (walk_dir es [] (g ++ defaultIgnore)))]) := by
  cases w <;> rfl

theorem get_structure_force_result (root : String) (es : List Entry) (follow w : Bool) :
    (get_structure root (some es) follow true w).result =
      Except.ok (Json.obj [("root",
        Json.arr (walk_dir es [] (gitignoreEntriesOf es follow ++ defaultIgnore)))]) := by
  cases w <;> rfl

theorem get_structure_force_fs_write (root : String) (es : List Entry) (follow : Bool) :
    (get_structure root (some es) follow true true).fs =
      some (writeResultFile es (Json.obj [("root",
        Json.arr (walk_dir es [] (gitignoreEntriesOf es follow ++ defaultIgnore)))])) := rfl

theorem get_structure_cache_hit {root : String} {es : List Entry} {follow w : Bool} {j : Json}
    (hcache : lookupFile es "project_structure.json" = some (FileData.jsonVal j)) :
    get_structure root (some es) follow false w =
      { result := Except.ok j
        events := gitignoreEvents (some es) follow ++ [Event.readCache]
        fs := some es } := by
  simp [get_structure, hcache, jsonLoad, gitignoreEvents]

theorem get_structure_some_ok (root : String) (es : List Entry) (f r w : Bool) :
    ∃ j, (get_structure root (some es) f r w).result = Except.ok j := by
  cases r with
  | true => exact ⟨_, get_structure_force_result root es f w⟩
  | false =>
    cases hc : lookupFile es "project_structure.json" with
    | some d =>
      cases hd : jsonLoad d with
      | some j => exact ⟨j, by simp [get_structure, hc, hd]⟩
      | none =>
        refine ⟨Json.obj [("root",
          Json.arr (walk_dir es [] (gitignoreEntriesOf es f ++ defaultIgnore)))], ?_⟩
        simp only [get_structure, hc, hd]
        exact regenerate_result es _ _ w
    | none =>
      refine ⟨Json.obj [("root",
        Json.arr (walk_dir es [] (gitignoreEntriesOf es f ++ defaultIgnore)))], ?_⟩
      simp only [get_structure, hc]
      exact regenerate_result es _ _ w

theorem lookupFile_append (es es' : List Entry) (nm : String) :
    lookupFile (es ++ es') nm =
      (match lookupFile es nm with
       | some d => some d
       | none => lookupFile es' nm) := by
  induction es with
  | nil => rfl
  | cons a rest ih =>
    cases a with
    | file n d =>
      by_cases hn : n = nm
      · simp [lookupFile, hn]
      · simp [lookupFile, hn, ih]
    | dir n cs => simp [lookupFile, ih]

theorem lookupFile_none_of_not_contains {es : List Entry} {nm : String}
    (h : containsEntryNamed es nm = false) : lookupFile es nm = none := by
  induction es with
  | nil => rfl
  | cons a rest ih =>
    simp only [containsEntryNamed, List.any_cons, Bool.or_eq_false_iff] at h
    rcases h with ⟨h1, h2⟩
    have hrest : lookupFile rest nm = none := by
      apply ih
      simp [containsEntryNamed, h2]
    cases a with
    | file n d =>
      have hn : n ≠ nm := by
        intro hcontra
        rw [hcontra] at h1
        simp [entryName] at h1
      simp [lookupFile, hn, hrest]
    | dir n cs => simp [lookupFile, hrest]

theorem lookupFile_map_cache {j : Json} : ∀ {es : List Entry},
    hasDirNamed es "project_structure.json" = false →
    containsEntryNamed es "project_structure.json" = true →
    lookupFile (es.map (fun e => match e with
      | Entry.file n _ =>
        if n = "project_structure.json" then Entry.file n (FileData.jsonVal j) else e
      | Entry.dir _ _ => e)) "project_structure.json" = some (FileData.jsonVal j) := by
  intro es hd hc
  induction es with
  | nil => simp [containsEntryNamed] at hc
  | cons a rest ih =>
    simp only [containsEntryNamed, List.any_cons, Bool.or_eq_true] at hc
    simp only [hasDirNamed, List.any_cons, Bool.or_eq_false_iff] at hd
    cases a with
    | file n d =>
      by_cases hn : n = "project_structure.json"
      · subst hn
        simp [lookupFile]
      · have hc' : containsEntryNamed rest "project_structure.json" = true := by
          rcases hc with h1 | h2
          · exact absurd (eq_of_beq h1) hn
          · simp [containsEntryNamed, h2]
        have hd' : hasDirNamed rest "project_structure.json" = false := by
          simp [hasDirNamed, hd.2]
        simp only [List.map_cons]
        rw [if_neg hn]
        simp only [lookupFile, if_neg hn]
        exact ih hd' hc'
    | dir n cs =>
      have hn : n ≠ "project_structure.json" := by
        intro hcontra
        subst hcontra
        simp [entryIsDir, entryName] at hd
      have hc' : containsEntryNamed rest "project_structure.json" = true := by
        rcases hc with h1 | h2
        · exact absurd (eq_of_beq h1) hn
        · simp [containsEntryNamed, h2]
      have hd' : hasDirNamed rest "project_structure.json" = false := by
        simp [hasDirNamed, hd.2]
      simp only [List.map_cons, lookupFile]
      exact ih hd' hc'

theorem lookupFile_writeResultFile_cache {es : List Entry} {j : Json}
    (h : hasDirNamed es "project_structure.json" = false) :
    lookupFile (writeResultFile es j) "project_structure.json" =
      some (FileData.jsonVal j) := by
  unfold writeResultFile
  cases hc : containsEntryNamed es "project_structure.json" with
  | false =>
    rw [if_neg (by simp)]
    rw [lookupFile_append, lookupFile_none_of_not_contains hc]
    simp [lookupFile]
  | true =>
    rw [if_pos rfl]
    exact lookupFile_map_cache h hc

theorem lookupFile_map_other {j : Json} {nm : String} (hnm : nm ≠ "project_structure.json") :
    ∀ (es : List Entry),
    lookupFile (es.map (fun e => match e with
      | Entry.file n _ =>
        if n = "project_structure.json" then Entry.file n (FileData.jsonVal j) else e
      | Entry.dir _ _ => e)) nm = lookupFile es nm := by
  intro es
  induction es with
  | nil => rfl
  | cons a rest ih =>
    cases a with
    | file n d =>
      by_cases hn : n = "project_structure.json"
      · subst hn
        have hn2 : ¬("project_structure.json" = nm) := fun h => hnm h.symm
        simp only [List.map_cons, if_pos rfl, lookupFile, if_neg hn2]
        exact ih
      · simp only [List.map_cons, if_neg hn, lookupFile]
        by_cases hn3 : n = nm
        · simp [hn3]
        · simp [hn3, ih]
    | dir n cs =>
      simp only [List.map_cons, lookupFile]
      exact ih

theorem lookupFile_writeResultFile_other {es : List Entry} {j : Json} {nm : String}
    (hnm : nm ≠ "project_structure.json") :
    lookupFile (writeResultFile es j) nm = lookupFile es nm := by
  unfold writeResultFile
  cases hc : containsEntryNamed es "project_structure.json" with
  | false =>
    rw [if_neg (by simp)]
    rw [lookupFile_append]
    cases hl : lookupFile es nm with
    | some d => simp
    | none =>
      simp only [lookupFile]
      rw [if_neg (fun hcontra => hnm hcontra.symm)]
  | true =>
    rw [if_pos rfl]
    exact lookupFile_map_other hnm es

theorem lookupFile_setFileData_other {es : List Entry} {nm nm' : String} {d : FileData}
    (h : nm ≠ nm') :
    lookupFile (setFileData es nm' d) nm = lookupFile es nm := by
  unfold setFileData
  induction es with
  | nil => rfl
  | cons a rest ih =>
    cases a with
    | file n d0 =>
      by_cases hn : n = nm'
      · have hn2 : ¬(n = nm) := by
          intro hh
          exact h (hh.symm.trans hn)
        simp only [List.map_cons, if_pos hn, lookupFile, if_neg hn2]
        exact ih
      · simp only [List.map_cons, if_neg hn, lookupFile]
        by_cases hn3 : n = nm
        · simp [hn3]
        · simp [hn3, ih]
    | dir n cs =>
      simp only [List.map_cons, lookupFile]
      exact ih

theorem insertEntry_map {g : Entry → Entry} (hk : ∀ e, entryKey (g e) = entryKey e)
    (a : Entry) : ∀ l : List Entry, insertEntry (g a) (l.map g) = (insertEntry a l).map g := by
  intro l
  induction l with
  | nil => rfl
  | cons b bs ih =>
    simp only [List.map_cons, insertEntry, hk a, hk b]
    by_cases hle : keyLe (entryKey a) (entryKey b) = true
    · simp [hle]
    · simp [hle, ih]

theorem sortEntries_map {g : Entry → Entry} (hk : ∀ e, entryKey (g e) = entryKey e) :
    ∀ es : List Entry, sortEntries (es.map g) = (sortEntries es).map g := by
  intro es
  induction es with
  | nil => rfl
  | cons e rest ih => simp only [List.map_cons, sortEntries, ih, insertEntry_map hk]

theorem walk_dir_map {g : Entry → Entry}
    (hgf : ∀ n d, ∃ d', g (Entry.file n d) = Entry.file n d')
    (hgd : ∀ n cs, g (Entry.dir n cs) = Entry.dir n cs) :
    ∀ (es : List Entry) (pre ig : List String),
    walk_dir (es.map g) pre ig = walk_dir es pre ig := by
  intro es pre ig
  have hk : ∀ e, entryKey (g e) = entryKey e := by
    intro e
    cases e with
    | file n d =>
      rcases hgf n d with ⟨d', hd'⟩
      rw [hd']
      rfl
    | dir n cs => rw [hgd]
  rw [walk_dir_unfold, walk_dir_unfold, sortEntries_map hk, List.filterMap_map]
  apply List.filterMap_congr
  intro e he
  cases e with
  | file n d =>
    rcases hgf n d with ⟨d', hd'⟩
    simp [Function.comp, hd', entryName]
  | dir n cs => simp [Function.comp, hgd n cs]

theorem writeResultFile_eq_map {es : List Entry} {j : Json}
    (hc : containsEntryNamed es "project_structure.json" = true) :
    writeResultFile es j = es.map (fun e => match e with
      | Entry.file n _ =>
        if n = "project_structure.json" then Entry.file n (FileData.jsonVal j) else e
      | Entry.dir _ _ => e) := by
  unfold writeResultFile
  rw [if_pos hc]

theorem posixAbsolute_joinPath {segs : List String} (h0 : segs ≠ [])
    (hv : ∀ x ∈ segs, validName x = true) :
    posixAbsolute (joinPath segs) = false := by
  cases segs with
  | nil => exact absurd rfl h0
  | cons x rest =>
    have hx := hv x (List.mem_cons_self _ _)
    have hslash := validName_no_slash hx
    have hne := validName_ne_empty hx
    have hdata : x.data ≠ [] := by
      intro hd
      apply hne
      cases x with
      | mk xd =>
        simp at hd
        rw [hd]
    cases rest with
    | nil =>
      show posixAbsolute x = false
      unfold posixAbsolute
      cases hxd : x.data with
      | nil => exact absurd hxd hdata
      | cons c cd =>
        have hc : c ≠ '/' := by
          intro hcc
          subst hcc
          exact hslash (hxd ▸ List.mem_cons_self _ _)
        simp [hc]
    | cons y rest2 =>
      show posixAbsolute (x ++ "/" ++ joinPath (y :: rest2)) = false
      unfold posixAbsolute
      rw [String.data_append, String.data_append]
      cases hxd : x.data with
      | nil => exact absurd hxd hdata
      | cons c cd =>
        have hc : c ≠ '/' := by
          intro hcc
          subst hcc
          exact hslash (hxd ▸ List.mem_cons_self _ _)
        simp [hc]

theorem lastDotIdx_of_no_dot : ∀ {l : List Char}, ('.' : Char) ∉ l → lastDotIdx l = none := by
  intro l h
  induction l with
  | nil => rfl
  | cons c cs ih =>
    have hc : c ≠ '.' := fun hh => h (hh ▸ List.mem_cons_self _ _)
    have hcs : ('.' : Char) ∉ cs := fun hh => h (List.mem_cons_of_mem _ hh)
    simp only [lastDotIdx]
    rw [ih hcs]
    simp [hc]

/-- C3 (corrected): calling the scanner on a root path that does not exist
or does not resolve to a directory raises a `ValueError` — not a
`NotADirectoryError`-class error as the specification says — that
propagates to the caller; no cache file is written (the filesystem is
untouched and no write event occurs); and root validation is the only
failure mode: a call on any existing directory always returns a result. -/
theorem invalid_root_raises_valueError (root : String) (f r w : Bool) :
    (get_structure root none f r w).result =
      Except.error (PyErr.valueError
        ("'" ++ root ++ "' is not a directory or does not exist.")) ∧
    (get_structure root none f r w).fs = none ∧
    Event.wroteCache ∉ (get_structure root none f r w).events ∧
    (∀ fsAt : Option (List Entry),
      (∃ er, (get_structure root fsAt f r w).result = Except.error er) → fsAt = none) := by
  refine ⟨rfl, rfl, ?_, ?_⟩
  · intro hmem
    have h2 : Event.wroteCache ∈ gitignoreEvents none f := hmem
    exact Event.noConfusion (mem_gitignoreEvents h2)
  · rintro fsAt ⟨er, her⟩
    cases fsAt with
    | none => rfl
    | some es =>
      rcases get_structure_some_ok root es f r w with ⟨j, hj⟩
      rw [hj] at her
      cases her

/-- Witness for the C3 theorem at the concrete missing root `/missing`,
also discharging the only-failure-mode implication there. -/
theorem invalid_root_raises_valueError_witness :
    (get_structure "/missing" none true true true).result =
      Except.error (PyErr.valueError "'/missing' is not a directory or does not exist.") ∧
    (none : Option (List Entry)) = none :=
  ⟨(invalid_root_raises_valueError "/missing" true true true).1,
   (invalid_root_raises_valueError "/missing" true true true).2.2.2 none
     ⟨PyErr.valueError "'/missing' is not a directory or does not exist.",
      (invalid_root_raises_valueError "/missing" true true true).1⟩⟩

/-- Counterexample to C3 as stated: on a missing root the raised error is
a `ValueError`, not an error of Python class `NotADirectoryError`. -/
theorem missing_root_error_not_notADirectoryError :
    isNotADirError (get_structure "/missing" none true true true).result = false ∧
    (get_structure "/missing" none true true true).result =
      Except.error (PyErr.valueError "'/missing' is not a directory or does not exist.") :=
  ⟨rfl, rfl⟩

/-- C2 (corrected): with `force_regenerate=false` and a parseable cache
file at `<root>/project_structure.json`, the call returns the parsed cache
contents directly, performs no filesystem walk and writes nothing — but,
contrary to the claim, `.gitignore` is still read when `follow_ignore_file`
is enabled; its contents merely contribute nothing to the result. -/
theorem cache_hit_returns_cache (root : String) (es : List Entry) (follow w : Bool) (j : Json)
    (hcache : lookupFile es "project_structure.json" = some (FileData.jsonVal j)) :
    (get_structure root (some es) follow false w).result = Except.ok j ∧
    Event.walkedFS ∉ (get_structure root (some es) follow false w).events ∧
    Event.wroteCache ∉ (get_structure root (some es) follow false w).events ∧
    (get_structure root (some es) follow false w).fs = some es := by
  rw [get_structure_cache_hit hcache]
  refine ⟨rfl, ?_, ?_, rfl⟩
  · intro hmem
    rcases List.mem_append.mp hmem with h | h
    · exact Event.noConfusion (mem_gitignoreEvents h)
    · simp at h
  · intro hmem
    rcases List.mem_append.mp hmem with h | h
    · exact Event.noConfusion (mem_gitignoreEvents h)
    · simp at h

/-- Witness for the C2 theorem on a concrete root with a cached value. -/
theorem cache_hit_returns_cache_witness :
    lookupFile c2FS "project_structure.json" = some (FileData.jsonVal (Json.str "cached")) ∧
    (get_structure "r" (some c2FS) true false true).result = Except.ok (Json.str "cached") :=
  ⟨rfl, (cache_hit_returns_cache "r" c2FS true true (Json.str "cached") rfl).1⟩

/-- Counterexample to C2 as stated: on a cache hit with
`follow_ignore_file=true`, the `.gitignore` file is read after all. -/
theorem cache_hit_reads_gitignore :
    Event.readGitignore ∈ (get_structure "r" (some c2FS) true false true).events := by
  decide

/-- C5 (corrected): provided no directory named `project_structure.json`
sits at the root (so the first scan's cache write succeeds), a
`write_result=true` scan followed by a `force_regenerate=false` scan of
the same root — with arbitrary edits to `.gitignore` in between — returns
the first scan's result identically, without re-walking the filesystem,
and therefore without reflecting the intervening `.gitignore` changes. -/
theorem cache_round_trip (root root2 : String) (es es1 : List Entry)
    (follow follow2 w2 : Bool) (t1 : Json) (d' : FileData)
    (hnd : hasDirNamed es "project_structure.json" = false)
    (h1 : (get_structure root (some es) follow true true).result = Except.ok t1)
    (hfs : (get_structure root (some es) follow true true).fs = some es1) :
    (get_structure root2 (some (setFileData es1 ".gitignore" d')) follow2 false w2).result =
      Except.ok t1 ∧
    Event.walkedFS ∉
      (get_structure root2 (some (setFileData es1 ".gitignore" d')) follow2 false w2).events := by
  have ht1 : t1 = Json.obj [("root",
      Json.arr (walk_dir es [] (gitignoreEntriesOf es follow ++ defaultIgnore)))] := by
    have h := get_structure_force_result root es follow true
    rw [h1] at h
    exact Except.ok.inj h
  have hes1 : es1 = writeResultFile es t1 := by
    have h := get_structure_force_fs_write root es follow
    rw [hfs] at h
    have h2 := Option.some.inj h
    rw [ht1]
    exact h2
  have hcache : lookupFile (setFileData es1 ".gitignore" d') "project_structure.json" =
      some (FileData.jsonVal t1) := by
    rw [lookupFile_setFileData_other (by decide)]
    rw [hes1]
    exact lookupFile_writeResultFile_cache hnd
  rw [get_structure_cache_hit hcache]
  refine ⟨rfl, ?_⟩
  intro hmem
  rcases List.mem_append.mp hmem with h | h
  · exact Event.noConfusion (mem_gitignoreEvents h)
  · simp at h

/-- Witness for the C5 theorem on a concrete root, with a no-op edit of
`.gitignore` between the two calls. -/
theorem cache_round_trip_witness :
    hasDirNamed c4FS "project_structure.json" = false ∧
    (get_structure "r2" (some (setFileData (writeResultFile c4FS c4Tree) ".gitignore"
        (FileData.text "a.txt"))) true false true).result = Except.ok c4Tree :=
  ⟨rfl, (cache_round_trip "r" "r2" c4FS (writeResultFile c4FS c4Tree) true true true c4Tree
      (FileData.text "a.txt") rfl rfl rfl).1⟩

/-- Counterexample to C5 as stated: when a directory named
`project_structure.json` blocks the cache write, the second call falls
back to a fresh walk and reflects the intervening `.gitignore` edit, so
its result differs from the first call's. -/
theorem cache_round_trip_fails_on_blocked_write :
    resultDump (get_structure "r" (some (setFileData
        ((get_structure "r" (some c5FS) true true true).fs.getD []) ".gitignore"
        (FileData.text "src"))) true false true) ≠
      resultDump (get_structure "r" (some c5FS) true true true) ∧
    Event.walkedFS ∈ (get_structure "r" (some (setFileData
        ((get_structure "r" (some c5FS) true true true).fs.getD []) ".gitignore"
        (FileData.text "src"))) true false true).events :=
  ⟨by decide, by decide⟩

/-- Counterexample to C1 as stated: the scenario scan's `root` list holds
three nodes, not exactly two — the `.gitignore` file itself is retained
(it is not in the Ignore Set and has an empty suffix). -/
theorem scenario_root_list_not_two :
    (rootListOf (okJson (get_structure "root" (some c1FS) true true true).result)).length ≠ 2 := by
  decide

/-- C1 (corrected): a fresh scan of the specification's scenario root
returns exactly three top-level nodes — `src` (dir, with the single child
`src/main.py` of type file and extension `.py`), `.gitignore` (file, empty
extension) and `README.md` (file, extension `.md`) — and no node whose
path passes through `.git`, `__pycache__`, `build` or `build_output`
appears anywhere in the result. -/
theorem scenario_scan_result :
    (get_structure "root" (some c1FS) true true true).result = Except.ok c1Tree ∧
    (allNodesL (rootListOf c1Tree)).all (fun node =>
      !((segments (pathOf node)).any (fun seg =>
        [".git", "__pycache__", "build", "build_output"].contains seg))) = true :=
  ⟨rfl, by decide⟩

theorem gitignoreEntriesOf_writeResultFile (es : List Entry) (t : Json) (follow : Bool) :
    gitignoreEntriesOf (writeResultFile es t) follow = gitignoreEntriesOf es follow := by
  cases follow with
  | false => rfl
  | true =>
    show (match lookupFile (writeResultFile es t) ".gitignore" with
      | some d => parseGitignoreLines (readText d)
      | none => []) =
      (match lookupFile es ".gitignore" with
      | some d => parseGitignoreLines (readText d)
      | none => [])
    rw [lookupFile_writeResultFile_other (by decide)]

/-- Counterexample to C4 as stated: on a valid root without a cache
sidecar, the first scan's own write of `project_structure.json` changes
what the second `force_regenerate=true` scan sees, so the two scans'
serialized results differ byte-for-byte. -/
theorem idempotence_fails_on_fresh_root :
    resultDump (get_structure "r"
        (some ((get_structure "r" (some c4FS) true true true).fs.getD [])) true true true) ≠
      resultDump (get_structure "r" (some c4FS) true true true) := by
  decide

/-- C4 (corrected): provided an entry named `project_structure.json`
already exists at the root before the first call (or `write_result` is
false), two consecutive `force_regenerate=true` scans with the filesystem
otherwise unchanged and `follow_ignore_file` held constant return equal
Scan Results, hence byte-for-byte identical JSON serializations. -/
theorem idempotent_rescan (root : String) (es es1 : List Entry) (follow w : Bool) (t1 t2 : Json)
    (hpre : containsEntryNamed es "project_structure.json" = true ∨ w = false)
    (h1 : (get_structure root (some es) follow true w).result = Except.ok t1)
    (hfs : (get_structure root (some es) follow true w).fs = some es1)
    (h2 : (get_structure root (some es1) follow true w).result = Except.ok t2) :
    t2 = t1 ∧ dumps t2 = dumps t1 := by
  suffices h : t2 = t1 from ⟨h, by rw [h]⟩
  have hw_t1 := get_structure_force_result root es follow w
  rw [h1] at hw_t1
  have ht1 := Except.ok.inj hw_t1
  cases w with
  | false =>
    have hes1 : es1 = es := by
      have h3 : (get_structure root (some es) follow true false).fs = some es := rfl
      rw [hfs] at h3
      exact Option.some.inj h3
    subst hes1
    have hw_t2 := get_structure_force_result root es1 follow false
    rw [h2] at hw_t2
    have ht2 := Except.ok.inj hw_t2
    rw [ht1, ht2]
  | true =>
    rcases hpre with hc | hw
    · have hes1 : es1 = writeResultFile es t1 := by
        have h3 := get_structure_force_fs_write root es follow
        rw [hfs] at h3
        have h4 := Option.some.inj h3
        rw [ht1]
        exact h4
      have hwalk : ∀ pre ig, walk_dir es1 pre ig = walk_dir es pre ig := by
        intro pre ig
        rw [hes1, writeResultFile_eq_map hc]
        apply walk_dir_map
        · intro n d
          by_cases hn : n = "project_structure.json"
          · exact ⟨FileData.jsonVal t1, by simp [hn]⟩
          · exact ⟨d, by simp [hn]⟩
        · intro n cs
          rfl
      have hgit : gitignoreEntriesOf es1 follow = gitignoreEntriesOf es follow := by
        rw [hes1]
        exact gitignoreEntriesOf_writeResultFile es t1 follow
      have hw_t2 := get_structure_force_result root es1 follow true
      rw [h2] at hw_t2
      have ht2 := Except.ok.inj hw_t2
      rw [ht1, ht2, hgit, hwalk]
    · exact absurd hw (by decide)

/-- Witness for the C4 theorem on a concrete root that already carries a
cache sidecar file. -/
theorem idempotent_rescan_witness :
    containsEntryNamed c4bFS "project_structure.json" = true ∧
    (c4bTree = c4bTree ∧ dumps c4bTree = dumps c4bTree) :=
  ⟨rfl, idempotent_rescan "r" c4bFS (writeResultFile c4bFS c4bTree) true true c4bTree c4bTree
    (Or.inl rfl) rfl rfl rfl⟩

/-- C6 (confirmed): in every fresh scan of a well-formed directory, every
`children` sequence of every directory node — and the top-level `root`
list — places all `dir` nodes before all `file` nodes, with entry names in
case-insensitive lexicographically ascending order within each group. -/
theorem children_ordering (root : String) (es : List Entry) (follow w : Bool)
    (hwf : wellFormed es = true) :
    ∀ l ∈ collect (rootListOf (okJson (get_structure root (some es) follow true w).result)),
      adjacentOrdered l = true := by
  intro l hl
  rw [get_structure_force_result] at hl
  exact walk_ordered (entryListSize es) (le_refl _) hwf
    (fun x hx => absurd hx (List.not_mem_nil x))
    (effectiveIgnore_ne_empty es follow) l hl

/-- Witness for the C6 theorem on the concrete scenario root. -/
theorem children_ordering_witness :
    wellFormed c1FS = true ∧
    (∀ l ∈ collect (rootListOf (okJson (get_structure "root" (some c1FS) true true true).result)),
      adjacentOrdered l = true) :=
  ⟨rfl, children_ordering "root" c1FS true true rfl⟩

/-- C7 (confirmed): in every fresh scan of a well-formed directory, no
path segment of any node — its own name or any ancestor directory name —
is in the effective Ignore Set (so an ignored entry and its whole subtree
never appear), and no file node carries the extension `.pyc`. -/
theorem ignored_names_absent (root : String) (es : List Entry) (follow w : Bool)
    (hwf : wellFormed es = true) :
    ∀ node ∈ allNodesL (rootListOf (okJson (get_structure root (some es) follow true w).result)),
      (∀ seg ∈ segments (pathOf node), seg ∉ effectiveIgnore es follow) ∧
      extOf node ≠ some ".pyc" := by
  intro node hnode
  rw [get_structure_force_result] at hnode
  rcases walk_nodes_spec (entryListSize es) (le_refl _) hwf
      (fun x hx => absurd hx (List.not_mem_nil x))
      (effectiveIgnore_ne_empty es follow) node hnode with ⟨s, hs0, hs1, hs2, hs3, hs4⟩
  have hsegs : segments (pathOf node) = s := by
    rw [hs2, List.nil_append]
    exact segments_joinPath s (fun x hx => validName_no_slash (hs1 x hx).1) hs0
  constructor
  · intro seg hseg
    rw [hsegs] at hseg
    exact (hs1 seg hseg).2
  · rcases hs4 with ⟨_, hext⟩ | ⟨_, hext, hpyc⟩
    · rw [hext]
      simp
    · rw [hext]
      intro hcontra
      exact hpyc (Option.some.inj hcontra)

/-- Witness for the C7 theorem on the concrete scenario root. -/
theorem ignored_names_absent_witness :
    wellFormed c1FS = true ∧
    (∀ node ∈ allNodesL (rootListOf
        (okJson (get_structure "root" (some c1FS) true true true).result)),
      (∀ seg ∈ segments (pathOf node), seg ∉ effectiveIgnore c1FS true) ∧
      extOf node ≠ some ".pyc") :=
  ⟨rfl, ignored_names_absent "root" c1FS true true rfl⟩

/-- C8 (confirmed): in every fresh scan of a well-formed directory, every
node's `path` is relative (never starts with `/`), resolves to an entry
that exists under the scanned root, and contains no `..` segment. -/
theorem paths_relative_and_resolvable (root : String) (es : List Entry) (follow w : Bool)
    (hwf : wellFormed es = true) :
    ∀ node ∈ allNodesL (rootListOf (okJson (get_structure root (some es) follow true w).result)),
      posixAbsolute (pathOf node) = false ∧
      (resolvePath es (segments (pathOf node))).isSome = true ∧
      ".." ∉ segments (pathOf node) := by
  intro node hnode
  rw [get_structure_force_result] at hnode
  rcases walk_nodes_spec (entryListSize es) (le_refl _) hwf
      (fun x hx => absurd hx (List.not_mem_nil x))
      (effectiveIgnore_ne_empty es follow) node hnode with ⟨s, hs0, hs1, hs2, hs3, hs4⟩
  have hsegs : segments (pathOf node) = s := by
    rw [hs2, List.nil_append]
    exact segments_joinPath s (fun x hx => validName_no_slash (hs1 x hx).1) hs0
  refine ⟨?_, ?_, ?_⟩
  · rw [hs2, List.nil_append]
    exact posixAbsolute_joinPath hs0 (fun x hx => (hs1 x hx).1)
  · rw [hsegs]
    exact hs3
  · rw [hsegs]
    intro hmem
    exact validName_ne_dotdot (hs1 _ hmem).1 rfl

/-- Witness for the C8 theorem on the concrete scenario root. -/
theorem paths_relative_and_resolvable_witness :
    wellFormed c1FS = true ∧
    (∀ node ∈ allNodesL (rootListOf
        (okJson (get_structure "root" (some c1FS) true true true).result)),
      posixAbsolute (pathOf node) = false ∧
      (resolvePath c1FS (segments (pathOf node))).isSome = true ∧
      ".." ∉ segments (pathOf node)) :=
  ⟨rfl, paths_relative_and_resolvable "root" c1FS true true rfl⟩

/-- C9 (confirmed): in every fresh scan of a well-formed directory, every
file node's `extension` is the final suffix of its name — the part from
the last dot on, with a leading-dot-only or dotless name giving the empty
string — as computed by `pySuffix`; in particular a file named `notes`
yields `""` and `archive.tar.gz` yields `".gz"`. -/
theorem file_extension_suffix (root : String) (es : List Entry) (follow w : Bool)
    (hwf : wellFormed es = true) :
    (∀ node ∈ allNodesL (rootListOf (okJson (get_structure root (some es) follow true w).result)),
      typeOf node = "file" → extOf node = some (pySuffix (nameOfNode node))) ∧
    pySuffix "notes" = "" ∧ pySuffix "archive.tar.gz" = ".gz" := by
  refine ⟨?_, rfl, rfl⟩
  intro node hnode htype
  rw [get_structure_force_result] at hnode
  rcases walk_nodes_spec (entryListSize es) (le_refl _) hwf
      (fun x hx => absurd hx (List.not_mem_nil x))
      (effectiveIgnore_ne_empty es follow) node hnode with ⟨s, hs0, hs1, hs2, hs3, hs4⟩
  have hsegs : segments (pathOf node) = s := by
    rw [hs2, List.nil_append]
    exact segments_joinPath s (fun x hx => validName_no_slash (hs1 x hx).1) hs0
  rcases hs4 with ⟨hdir, _⟩ | ⟨_, hext, _⟩
  · rw [htype] at hdir
    exact absurd hdir (by decide)
  · rw [hext]
    unfold nameOfNode
    rw [hsegs]

/-- Witness for the C9 theorem on a root holding `notes` and
`archive.tar.gz`. -/
theorem file_extension_suffix_witness :
    wellFormed c9FS = true ∧
    ((∀ node ∈ allNodesL (rootListOf
        (okJson (get_structure "root" (some c9FS) true true true).result)),
      typeOf node = "file" → extOf node = some (pySuffix (nameOfNode node))) ∧
     pySuffix "notes" = "" ∧ pySuffix "archive.tar.gz" = ".gz") :=
  ⟨rfl, file_extension_suffix "root" c9FS true true rfl⟩

/-- C10 (confirmed): a file whose name begins with a dot and contains no
other dot has `pySuffix` equal to the empty string — the leading-dot name
counts as having no suffix rather than being entirely an extension — and
such a file is not skipped by the `.pyc` rule: whenever it is listed and
its name is not in the (nonempty) ignore set, its node, with empty
extension, appears in the walk output. -/
theorem dotfile_empty_extension (nm : String)
    (hdot : nm.data.head? = some '.') (hnodot : ('.' : Char) ∉ nm.data.tail) :
    pySuffix nm = "" ∧
    ∀ (es : List Entry) (pre ig : List String) (d : FileData),
      ig.isEmpty = false → Entry.file nm d ∈ es → nm ∉ ig →
      fileNode (joinPath (pre ++ [nm])) "" ∈ walk_dir es pre ig := by
  have hsuf : pySuffix nm = "" := by
    cases hd : nm.data with
    | nil => simp [pySuffix, hd, lastDotIdx]
    | cons c rest =>
      have hc : c = '.' := by
        rw [hd] at hdot
        simpa using hdot
      subst hc
      have hrest : ('.' : Char) ∉ rest := by
        rw [hd] at hnodot
        simpa using hnodot
      unfold pySuffix
      rw [hd]
      simp only [lastDotIdx]
      rw [lastDotIdx_of_no_dot hrest]
      simp
  refine ⟨hsuf, ?_⟩
  intro es pre ig d hig hmem hnin
  apply (mem_walk_dir hig).mpr
  refine ⟨Entry.file nm d, mem_sortEntries.mpr hmem, ?_, Or.inr ⟨nm, d, rfl, ?_, ?_⟩⟩
  · simpa [entryName] using hnin
  · rw [hsuf]
    decide
  · rw [hsuf]

/-- Witness for the C10 theorem on the concrete dotfile `.env`. -/
theorem dotfile_empty_extension_witness :
    (".env".data.head? = some '.') ∧ (('.' : Char) ∉ ".env".data.tail) ∧
    pySuffix ".env" = "" ∧
    fileNode ".env" "" ∈ walk_dir [Entry.file ".env" (FileData.text "")] [] ["x"] := by
  have h := dotfile_empty_extension ".env" rfl (by decide)
  refine ⟨rfl, by decide, h.1, ?_⟩
  exact h.2 [Entry.file ".env" (FileData.text "")] [] ["x"] (FileData.text "")
    rfl (List.mem_cons_self _ _) (by decide)
